import Mathlib

/-!
Verification development for the skeleton-point extraction pipeline of
`extractPoints.py` (function `extract_points`).
The embedding below translates the source into Lean:
* pixels are `(row, col)` pairs of naturals, masks are lists of boolean rows;
* `measure.label(skeleton, connectivity=2)` followed by `measure.regionprops`
  is embedded as `componentsOf`: the 8-connected components of the foreground,
  listed in raster-scan order of their first pixel, each component being the
  row-major list of its pixels (`regionprops` yields `coords` in row-major
  order, the order of `numpy.nonzero`);
* `skimage.morphology.skeletonize` is an external library primitive whose
  output is again a mask; the pipeline is parametric in it (`sk`), and every
  theorem below holds for an arbitrary thinning function;
* image loading (`io.imread` plus the `rgb2gray` conversion) is modelled by a
  parameter `imageOf` assigning a grayscale `Raster` to each path;
* the binarization branch on `dtype`, the glob listing, the substring filters
  and the stride-5 emission are translated directly from the source.
-/

/-- A pixel coordinate `(row, col)`. -/
abbrev Pix := ℕ × ℕ

/-- A boolean raster mask: a list of rows. -/
abbrev Mask := List (List Bool)

/-- Row-major (lexicographic) strict order on pixel coordinates. -/
def pixLt (p q : Pix) : Prop :=
  p.1 < q.1 ∨ (p.1 = q.1 ∧ p.2 < q.2)

instance (p q : Pix) : Decidable (pixLt p q) := by
  unfold pixLt; infer_instance

/-- 8-connectivity: two distinct pixels whose rows and columns each differ by
at most one (`connectivity=2` in `measure.label`). -/
def nbhd (p q : Pix) : Prop :=
  p ≠ q ∧ p.1 ≤ q.1 + 1 ∧ q.1 ≤ p.1 + 1 ∧ p.2 ≤ q.2 + 1 ∧ q.2 ≤ p.2 + 1

instance (p q : Pix) : Decidable (nbhd p q) := by
  unfold nbhd; infer_instance

/-- The foreground pixels contributed by row `r` of the mask, in ascending
column order. -/
def fgRow (r : ℕ) (row : List Bool) : List Pix :=
  row.enum.filterMap fun cb => if cb.2 then some (r, cb.1) else none

/-- The foreground pixels of a mask in raster-scan (row-major) order: the
order in which `numpy.nonzero` enumerates the `True` entries. -/
def fgList (mask : Mask) : List Pix :=
  mask.enum.flatMap fun rrow => fgRow rrow.1 rrow.2

/-- One step of connectivity within the foreground list: move to a foreground
pixel that is an 8-neighbor of the current one. -/
def stepFg (fg : List Pix) (p q : Pix) : Prop :=
  q ∈ fg ∧ nbhd p q

/-- `q` is in the same 8-connected region as `p` (within `fg`). -/
def reaches (fg : List Pix) (p q : Pix) : Prop :=
  Relation.ReflTransGen (stepFg fg) p q

/-- The pixels of `fg` adjacent to the current region `s` but not yet in it. -/
def grow (fg s : List Pix) : List Pix :=
  fg.filter fun q => !(decide (q ∈ s)) && s.any fun p => decide (nbhd p q)

/-- Fueled closure iteration: repeatedly add to `s` the foreground pixels
adjacent to it, until nothing is added or the fuel runs out. -/
def reachN (fg : List Pix) : ℕ → List Pix → List Pix
  | 0, s => s
  | n + 1, s =>
    match grow fg s with
    | [] => s
    | q :: rest => reachN fg n (s ++ q :: rest)

/-- The 8-connected region of `fg` containing `p`: `|fg|` rounds of growth
always reach the fixpoint. -/
def reach (fg : List Pix) (p : Pix) : List Pix :=
  reachN fg fg.length [p]

/-- The connected component of `p`, listed in the row-major order of `fg`
(the order of `regionprops(...).coords`). -/
def compOf (fg : List Pix) (p : Pix) : List Pix :=
  fg.filter fun q => decide (q ∈ reach fg p)

/-- Raster scan of the labeler (`measure.label`): walk the foreground pixels
in row-major order and start a new component at every pixel not yet covered
by an earlier component. -/
def compsAux (fg : List Pix) : List Pix → List Pix → List (List Pix)
  | _, [] => []
  | covered, p :: rest =>
    if p ∈ covered then compsAux fg covered rest
    else compOf fg p :: compsAux fg (covered ++ compOf fg p) rest

/-- The connected components of a mask, as produced by
`regionprops(label(mask, connectivity=2))`: listed in ascending order of
their first (raster-scan) pixel, each as its row-major coordinate list. -/
def componentsOf (mask : Mask) : List (List Pix) :=
  compsAux (fgList mask) [] (fgList mask)

/-- The first pixels of two components are ordered. -/
def headLt (c d : List Pix) : Prop :=
  ∃ p q, c.head? = some p ∧ d.head? = some q ∧ pixLt p q

/-- Stride helper: `slice5Aux c l` skips the next `c` elements, then keeps
one element and resets the skip counter to 4. -/
def slice5Aux {α : Type} : ℕ → List α → List α
  | _, [] => []
  | 0, x :: xs => x :: slice5Aux 4 xs
  | n + 1, _ :: xs => slice5Aux n xs

/-- Python slicing `coords[::5]`: every 5th element starting at index 0. -/
def slice5 {α : Type} (l : List α) : List α :=
  slice5Aux 0 l

/-- The sample type of a loaded raster (`this_image.dtype`). `uint8` is the
only type the source tests for; `uint16` stands for any other integer dtype
and `float64` for floating-point data (also produced by `rgb2gray`). -/
inductive Dtype
  | uint8
  | uint16
  | float64
deriving DecidableEq, Repr

/-- A loaded grayscale raster: its dtype tag and its pixel values (exact
rationals standing for the stored sample values). -/
structure Raster where
  dtype : Dtype
  pixels : List (List ℚ)
deriving DecidableEq, Repr

/-- The binarization of the source:
`binary_image = this_image < 255 if this_image.dtype == np.uint8
 else this_image < 1.0`. There is no error branch: every other dtype takes
the `< 1.0` comparison. -/
def binarize (r : Raster) : Mask :=
  if r.dtype = Dtype.uint8 then
    r.pixels.map fun row => row.map fun v => decide (v < 255)
  else
    r.pixels.map fun row => row.map fun v => decide (v < 1)

/-- Optional lookup of a pixel value. -/
def pixAt (r : Raster) (i j : ℕ) : Option ℚ :=
  r.pixels[i]?.bind fun row => row[j]?

/-- Optional lookup of a mask entry. -/
def maskAt (m : Mask) (i j : ℕ) : Option Bool :=
  m[i]?.bind fun row => row[j]?

/-- Character-list test: does the second list start with the first? -/
def leadsWith : List Char → List Char → Bool
  | [], _ => true
  | _ :: _, [] => false
  | a :: as, b :: bs => a == b && leadsWith as bs

/-- Character-list substring test (the semantics of Python's `in` operator
on strings). -/
def containsChars (needle : List Char) : List Char → Bool
  | [] => leadsWith needle []
  | c :: rest => leadsWith needle (c :: rest) || containsChars needle rest

/-- Python `needle in hay` on strings. -/
def containsStr (hay needle : String) : Bool :=
  containsChars needle.toList hay.toList

/-- `os.path.basename`: the part of a path after its last slash. -/
def basenameStr (s : String) : String :=
  ⟨(s.toList.reverse.takeWhile fun c => !(c == '/')).reverse⟩

/-- Helper for `os.path.splitext`: remove the extension (from the last dot on)
from a list of characters known to have no leading dots. -/
def dropExt (l : List Char) : List Char :=
  let rev := l.reverse
  let i := (rev.takeWhile fun c => !(c == '.')).length
  if i = rev.length then l else (rev.drop (i + 1)).reverse

/-- `os.path.splitext(os.path.basename(name))[0]`: the basename without its
extension; leading dots of the basename never start an extension. -/
def nameOnlyOf (imageName : String) : String :=
  let b := (basenameStr imageName).toList
  let k := (b.takeWhile fun c => c == '.').length
  ⟨b.take k ++ dropExt (b.drop k)⟩

/-- Suffix test on strings via their character lists. -/
def endsWithChars (s suf : String) : Bool :=
  leadsWith suf.toList.reverse s.toList.reverse

/-- A string starts with the given character sequence. -/
def startsWithChars (s head : String) : Bool :=
  leadsWith head.toList s.toList

/-- The result of `glob.glob(os.path.join(directory, '*.tif'))` on a
directory holding the given file names: the non-hidden files (glob's `*`
never matches a leading dot) ending in `.tif`, in the underlying listing
order. -/
def tifListing (dirFiles : List String) : List String :=
  dirFiles.filter fun f => !(startsWithChars f ".") && endsWithChars f ".tif"

/-- One output line of the source:
`alt_name, x-coordinate, y-coordinate, suffix, component_index`. -/
structure OutputRecord where
  label : String
  x : ℕ
  y : ℕ
  suffix : String
  componentIndex : ℕ
deriving DecidableEq, Repr

/-- The records the source writes for the components of one processed image:
`for comp_idx, region in enumerate(regions, start=1): ... region.coords[::5]`,
writing `x = col`, `y = row`. -/
def recordsOfComps (alt sfx : String) (comps : List (List Pix)) :
    List OutputRecord :=
  comps.enum.flatMap fun kc =>
    (slice5 kc.2).map fun rc =>
      { label := alt, x := rc.2, y := rc.1, suffix := sfx,
        componentIndex := kc.1 + 1 }

/-- `matching_files`: the listing filtered to files whose basename contains
the base image name as a substring. -/
def matchingFiles (listing : List String) (nameOnly : String) : List String :=
  listing.filter fun file => containsStr (basenameStr file) nameOnly

/-- `files_with_suffix`: the matching files further filtered to those whose
basename contains the suffix as a substring. -/
def filesWithSuffix (matching : List String) (sfx : String) : List String :=
  matching.filter fun file => containsStr (basenameStr file) sfx

/-- The records one `(image, suffix)` pair contributes: nothing when no file
matches (`if files_with_suffix:` is false), otherwise the records of the
first matching file (`files_with_suffix[0]`). -/
def pairRecords (alt sfx : String) (matching : List String)
    (sk : Mask → Mask) (imageOf : String → Raster) : List OutputRecord :=
  match (filesWithSuffix matching sfx).head? with
  | none => []
  | some path =>
    recordsOfComps alt sfx (componentsOf (sk (binarize (imageOf path))))

/-- The whole run of `extract_points`, as the list of records written to the
output file. `sk` is the library skeletonizer (`morphology.skeletonize`),
`imageOf` the library image loader (`io.imread` composed with `rgb2gray`
when the file is color). -/
def extract_points (image_names dirFiles suffixes alt_names : List String)
    (sk : Mask → Mask) (imageOf : String → Raster) : List OutputRecord :=
  let listing := tifListing dirFiles
  image_names.enum.flatMap fun ii =>
    let matching := matchingFiles listing (nameOnlyOf ii.2)
    suffixes.flatMap fun sfx =>
      pairRecords (alt_names.getD ii.1 "") sfx matching sk imageOf

/-- `recordsOfComps` with each record tagged by its
`(criterion index, suffix index, component id, stride position)` key. -/
def keyedRecordsOfComps (ci si : ℕ) (alt sfx : String)
    (comps : List (List Pix)) : List ((ℕ × ℕ × ℕ × ℕ) × OutputRecord) :=
  comps.enum.flatMap fun kc =>
    (slice5 kc.2).enum.map fun jrc =>
      ((ci, si, kc.1 + 1, jrc.1),
       { label := alt, x := jrc.2.2, y := jrc.2.1, suffix := sfx,
         componentIndex := kc.1 + 1 })

/-- `pairRecords` with each record tagged by its emission key. -/
def pairRecordsKeyed (ci si : ℕ) (alt sfx : String) (matching : List String)
    (sk : Mask → Mask) (imageOf : String → Raster) :
    List ((ℕ × ℕ × ℕ × ℕ) × OutputRecord) :=
  match (filesWithSuffix matching sfx).head? with
  | none => []
  | some path =>
    keyedRecordsOfComps ci si alt sfx (componentsOf (sk (binarize (imageOf path))))

/-- `extract_points` with each record tagged by its emission key. -/
def extract_points_keyed (image_names dirFiles suffixes alt_names : List String)
    (sk : Mask → Mask) (imageOf : String → Raster) :
    List ((ℕ × ℕ × ℕ × ℕ) × OutputRecord) :=
  let listing := tifListing dirFiles
  image_names.enum.flatMap fun ii =>
    let matching := matchingFiles listing (nameOnlyOf ii.2)
    suffixes.enum.flatMap fun ss =>
      pairRecordsKeyed ii.1 ss.1 (alt_names.getD ii.1 "") ss.2 matching sk imageOf

/-- Lexicographic order on emission keys. -/
def keyLt (a b : ℕ × ℕ × ℕ × ℕ) : Prop :=
  a.1 < b.1 ∨ (a.1 = b.1 ∧ (a.2.1 < b.2.1 ∨ (a.2.1 = b.2.1 ∧
    (a.2.2.1 < b.2.2.1 ∨ (a.2.2.1 = b.2.2.1 ∧ a.2.2.2 < b.2.2.2)))))

/-- One line of the output file, following the format string of the source:
`"{},{},{},{},{}\n".format(alt_names[idx], int(x), int(y), suffix, comp_idx)`. -/
def serializeRecord (r : OutputRecord) : String :=
  r.label ++ "," ++ toString r.x ++ "," ++ toString r.y ++ ","
    ++ r.suffix ++ "," ++ toString r.componentIndex ++ "\n"

/-- The byte content written by a whole run. -/
def serializeAll (rs : List OutputRecord) : String :=
  String.join (rs.map serializeRecord)

/-- `open(output_file, 'wt')`: write-text mode truncates whatever the file
held before. -/
def openWT (_prev : String) : String := ""

/-- The content of the output file after a run of `extract_points`, starting
from a file that previously held `prev`. -/
def finalFileContent (prev : String)
    (image_names dirFiles suffixes alt_names : List String)
    (sk : Mask → Mask) (imageOf : String → Raster) : String :=
  openWT prev
    ++ serializeAll (extract_points image_names dirFiles suffixes alt_names sk imageOf)

/-- Modelled from the spec: the eight neighbor candidates of a pixel in
clockwise order starting from north, clipped at the grid's upper and left
edges (spec section 4.4: "neighbor order fixed: e.g., clockwise from
north"). The labeler itself is delegated to `measure.label` in the source;
this definition exists only to compare the spec's claimed visit order with
the coordinate order the source actually emits. -/
def nbrsCW (p : Pix) : List Pix :=
  (if 0 < p.1 then [(p.1 - 1, p.2)] else [])
    ++ (if 0 < p.1 then [(p.1 - 1, p.2 + 1)] else [])
    ++ [(p.1, p.2 + 1), (p.1 + 1, p.2 + 1), (p.1 + 1, p.2)]
    ++ (if 0 < p.2 then [(p.1 + 1, p.2 - 1), (p.1, p.2 - 1)] else [])
    ++ (if 0 < p.1 && 0 < p.2 then [(p.1 - 1, p.2 - 1)] else [])

/-- Modelled from the spec: breadth-first flood fill of the foreground from a
seed, recording pixels in the order they are first enqueued (which is the
order a breadth-first visit first reaches them), with the fixed clockwise
neighbor order of `nbrsCW`. -/
def bfsAux (fg : List Pix) : ℕ → List Pix → List Pix → List Pix
  | 0, _, vis => vis
  | _ + 1, [], vis => vis
  | n + 1, q :: qs, vis =>
    let new := (nbrsCW q).filter fun x => decide (x ∈ fg) && !(decide (x ∈ vis))
    bfsAux fg n (qs ++ new) (vis ++ new)

/-- Modelled from the spec: the breadth-first visit order of the component
of `seed` (spec section 4.4). -/
def bfsOrder (fg : List Pix) (seed : Pix) : List Pix :=
  bfsAux fg (fg.length + 1) [seed] [seed]

/-- The records emitted for a single component (the inner loop of the
source): every 5th pixel of the coordinate list, written as
`x = col`, `y = row`. -/
def emitComponent (alt sfx : String) (ci : ℕ) (coords : List Pix) :
    List OutputRecord :=
  (slice5 coords).map fun rc =>
    { label := alt, x := rc.2, y := rc.1, suffix := sfx, componentIndex := ci }

theorem pixLt_irrefl (p : Pix) : ¬ pixLt p p := by
  rintro (h | ⟨-, h⟩) <;> exact Nat.lt_irrefl _ h

theorem pixLt_trans {p q r : Pix} (h₁ : pixLt p q) (h₂ : pixLt q r) : pixLt p r := by
  rcases h₁ with h₁ | ⟨e₁, h₁⟩ <;> rcases h₂ with h₂ | ⟨e₂, h₂⟩
  · exact Or.inl (h₁.trans h₂)
  · exact Or.inl (e₂ ▸ h₁)
  · exact Or.inl (e₁ ▸ h₂)
  · exact Or.inr ⟨e₁.trans e₂, h₁.trans h₂⟩

theorem pixLt_asymm {p q : Pix} (h : pixLt p q) : ¬ pixLt q p :=
  fun h' => pixLt_irrefl p (pixLt_trans h h')

theorem nbhd_symm {p q : Pix} (h : nbhd p q) : nbhd q p :=
  ⟨fun e => h.1 e.symm, h.2.2.1, h.2.1, h.2.2.2.2, h.2.2.2.1⟩

theorem fgRow_enumFrom_mem {r : ℕ} {row : List Bool} {n : ℕ} {q : Pix}
    (h : q ∈ (List.enumFrom n row).filterMap
      fun cb => if cb.2 then some (r, cb.1) else none) :
    q.1 = r ∧ n ≤ q.2 := by
  induction row generalizing n with
  | nil => simp at h
  | cons b row ih =>
    simp only [List.enumFrom, List.filterMap_cons] at h
    by_cases hb : b
    · simp only [hb, if_pos, List.mem_cons] at h
      rcases h with h | h
      · subst h; exact ⟨rfl, le_refl n⟩
      · rcases ih h with ⟨h1, h2⟩; exact ⟨h1, (Nat.le_succ n).trans h2⟩
    · simp only [hb, if_neg, Bool.false_eq_true, not_false_iff] at h
      rcases ih h with ⟨h1, h2⟩; exact ⟨h1, (Nat.le_succ n).trans h2⟩

theorem fgRow_enumFrom_pairwise (r : ℕ) (row : List Bool) (n : ℕ) :
    ((List.enumFrom n row).filterMap
      fun cb => if cb.2 then some (r, cb.1) else none).Pairwise pixLt := by
  induction row generalizing n with
  | nil => simp
  | cons b row ih =>
    simp only [List.enumFrom, List.filterMap_cons]
    by_cases hb : b
    · simp only [hb, if_pos]
      refine List.Pairwise.cons ?_ (ih (n + 1))
      intro q hq
      rcases fgRow_enumFrom_mem hq with ⟨h1, h2⟩
      exact Or.inr ⟨h1.symm, Nat.lt_of_lt_of_le (Nat.lt_succ_self n) h2⟩
    · simp only [hb, Bool.false_eq_true, if_neg, not_false_iff]
      exact ih (n + 1)

theorem fgRow_mem {r : ℕ} {row : List Bool} {q : Pix} (h : q ∈ fgRow r row) :
    q.1 = r :=
  (fgRow_enumFrom_mem (n := 0) h).1

theorem fgRow_pairwise (r : ℕ) (row : List Bool) : (fgRow r row).Pairwise pixLt :=
  fgRow_enumFrom_pairwise r row 0

theorem fgList_enumFrom_mem {mask : Mask} {n : ℕ} {q : Pix}
    (h : q ∈ (List.enumFrom n mask).flatMap fun rrow => fgRow rrow.1 rrow.2) :
    n ≤ q.1 := by
  induction mask generalizing n with
  | nil => simp at h
  | cons row mask ih =>
    simp only [List.enumFrom, List.flatMap_cons, List.mem_append] at h
    rcases h with h | h
    · exact (fgRow_mem h).ge
    · exact (Nat.le_succ n).trans (ih h)

theorem fgList_enumFrom_pairwise (mask : Mask) (n : ℕ) :
    ((List.enumFrom n mask).flatMap fun rrow => fgRow rrow.1 rrow.2).Pairwise pixLt := by
  induction mask generalizing n with
  | nil => simp
  | cons row mask ih =>
    simp only [List.enumFrom, List.flatMap_cons]
    rw [List.pairwise_append]
    refine ⟨fgRow_pairwise n row, ih (n + 1), ?_⟩
    intro a ha b hb
    have h1 : a.1 = n := fgRow_mem ha
    have h2 : n + 1 ≤ b.1 := fgList_enumFrom_mem hb
    exact Or.inl (h1 ▸ Nat.lt_of_lt_of_le (Nat.lt_succ_self n) h2)

/-- `fgList` is strictly sorted in row-major order. -/
theorem fgList_pairwise (mask : Mask) : (fgList mask).Pairwise pixLt :=
  fgList_enumFrom_pairwise mask 0

theorem reaches_mem {fg : List Pix} {p q : Pix} (h : reaches fg p q) :
    q = p ∨ q ∈ fg := by
  rcases h.cases_tail with h | ⟨c, -, hc⟩
  · exact Or.inl h
  · exact Or.inr hc.1

theorem reaches_symm {fg : List Pix} {p q : Pix} (hp : p ∈ fg)
    (h : reaches fg p q) : reaches fg q p := by
  induction h with
  | refl => exact Relation.ReflTransGen.refl
  | @tail c q' hxc hcq ih =>
    have hc : c ∈ fg := by
      rcases reaches_mem hxc with h | h
      · exact h ▸ hp
      · exact h
    exact (Relation.ReflTransGen.single ⟨hc, nbhd_symm hcq.2⟩).trans ih

theorem grow_mem {fg s : List Pix} {q : Pix} (h : q ∈ grow fg s) :
    q ∈ fg ∧ q ∉ s ∧ ∃ p ∈ s, nbhd p q := by
  rcases List.mem_filter.mp h with ⟨h1, h2⟩
  simp only [Bool.and_eq_true, Bool.not_eq_true', decide_eq_false_iff_not,
    List.any_eq_true, decide_eq_true_eq] at h2
  exact ⟨h1, h2.1, h2.2⟩

theorem grow_eq_nil_iff {fg s : List Pix} :
    grow fg s = [] ↔ ∀ q ∈ fg, q ∉ s → ∀ p ∈ s, ¬ nbhd p q := by
  constructor
  · intro h q hq hqs p hp hn
    have : q ∈ grow fg s := by
      refine List.mem_filter.mpr ⟨hq, ?_⟩
      simp only [Bool.and_eq_true, Bool.not_eq_true', decide_eq_false_iff_not,
        List.any_eq_true, decide_eq_true_eq]
      exact ⟨hqs, p, hp, hn⟩
    simp [h] at this
  · intro h
    rcases hgs : grow fg s with - | ⟨q, rest⟩
    · rfl
    · have hq : q ∈ grow fg s := by rw [hgs]; exact List.mem_cons_self q rest
      rcases grow_mem hq with ⟨h1, h2, p, hp, hn⟩
      exact absurd hn (h q h1 h2 p hp)

theorem reachN_subset_left {fg : List Pix} {n : ℕ} {s : List Pix} :
    ∀ q ∈ s, q ∈ reachN fg n s := by
  induction n generalizing s with
  | zero => intro q hq; exact hq
  | succ n ih =>
    intro q hq
    unfold reachN
    rcases hgs : grow fg s with - | ⟨a, rest⟩
    · exact hq
    · exact ih q (List.mem_append_left _ hq)

theorem reachN_sound {fg : List Pix} {p : Pix} {n : ℕ} {s : List Pix}
    (hs : ∀ q ∈ s, reaches fg p q) : ∀ q ∈ reachN fg n s, reaches fg p q := by
  induction n generalizing s with
  | zero => exact hs
  | succ n ih =>
    intro q hq
    unfold reachN at hq
    rcases hgs : grow fg s with - | ⟨a, rest⟩
    · rw [hgs] at hq; exact hs q hq
    · rw [hgs] at hq
      refine ih ?_ q hq
      intro r hr
      rcases List.mem_append.mp hr with hr | hr
      · exact hs r hr
      · have : r ∈ grow fg s := hgs ▸ hr
        rcases grow_mem this with ⟨h1, -, b, hb, hn⟩
        exact (hs b hb).tail ⟨h1, hn⟩

theorem filter_length_lt {α : Type} [DecidableEq α] {l : List α} {p q : α → Bool}
    (himp : ∀ x, q x = true → p x = true) {a : α} (ha : a ∈ l)
    (hpa : p a = true) (hqa : q a = false) :
    (l.filter q).length < (l.filter p).length := by
  induction l with
  | nil => simp at ha
  | cons x l ih =>
    by_cases hx : x = a
    · subst hx
      rw [List.filter_cons_of_pos hpa, List.filter_cons_of_neg (by simp [hqa])]
      exact Nat.lt_succ_of_le (List.monotone_filter_right l himp).length_le
    · have ha' : a ∈ l := by
        rcases List.mem_cons.mp ha with h | h
        · exact absurd h.symm hx
        · exact h
      by_cases hqx : q x = true
      · rw [List.filter_cons_of_pos hqx, List.filter_cons_of_pos (himp x hqx)]
        simpa using ih ha'
      · rw [List.filter_cons_of_neg (by simpa using hqx)]
        calc (l.filter q).length < (l.filter p).length := ih ha'
          _ ≤ ((x :: l).filter p).length := by
            rw [List.filter_cons]
            split <;> simp

theorem reachN_fixpoint {fg : List Pix} {n : ℕ} {s : List Pix}
    (h : (fg.filter fun q => !(decide (q ∈ s))).length ≤ n) :
    grow fg (reachN fg n s) = [] := by
  induction n generalizing s with
  | zero =>
    have hnil : (fg.filter fun q => !(decide (q ∈ s))) = [] :=
      List.length_eq_zero.mp (Nat.le_zero.mp h)
    have hall : ∀ q ∈ fg, q ∈ s := by
      intro q hq
      by_contra hqs
      have : q ∈ fg.filter fun q => !(decide (q ∈ s)) :=
        List.mem_filter.mpr ⟨hq, by simp [hqs]⟩
      simp [hnil] at this
    show grow fg s = []
    exact grow_eq_nil_iff.mpr fun q hq hqs => absurd (hall q hq) hqs
  | succ n ih =>
    unfold reachN
    rcases hgs : grow fg s with - | ⟨a, rest⟩
    · exact hgs
    · apply ih
      have ha : a ∈ grow fg s := by rw [hgs]; exact List.mem_cons_self a rest
      rcases grow_mem ha with ⟨ha1, ha2, -⟩
      have hdec : ((fg.filter fun q => !(decide (q ∈ s ++ a :: rest))).length)
          < (fg.filter fun q => !(decide (q ∈ s))).length := by
        refine filter_length_lt ?_ ha1 (by simp [ha2]) ?_
        · intro x hx
          simp only [Bool.not_eq_true', decide_eq_false_iff_not, List.mem_append] at hx ⊢
          exact fun hxs => hx (Or.inl hxs)
        · simp [List.mem_append]
      exact Nat.lt_succ_iff.mp (Nat.lt_of_lt_of_le hdec h)

theorem grow_reach_eq_nil (fg : List Pix) (p : Pix) : grow fg (reach fg p) = [] :=
  reachN_fixpoint (List.length_filter_le _ fg)

theorem reach_sound {fg : List Pix} {p q : Pix} (h : q ∈ reach fg p) :
    reaches fg p q := by
  refine reachN_sound ?_ q h
  intro r hr
  rcases List.mem_singleton.mp hr with rfl
  exact Relation.ReflTransGen.refl

theorem reach_complete {fg : List Pix} {p q : Pix} (h : reaches fg p q) :
    q ∈ reach fg p := by
  induction h with
  | refl => exact reachN_subset_left p (List.mem_singleton_self p)
  | @tail c q' hxc hcq ih =>
    by_contra hq
    have : q' ∈ grow fg (reach fg p) := by
      refine List.mem_filter.mpr ⟨hcq.1, ?_⟩
      simp only [Bool.and_eq_true, Bool.not_eq_true', decide_eq_false_iff_not,
        List.any_eq_true, decide_eq_true_eq]
      exact ⟨hq, c, ih, hcq.2⟩
    rw [grow_reach_eq_nil] at this
    simp at this

theorem mem_reach_iff {fg : List Pix} {p q : Pix} :
    q ∈ reach fg p ↔ reaches fg p q :=
  ⟨reach_sound, reach_complete⟩

theorem compOf_mem {fg : List Pix} {p q : Pix} :
    q ∈ compOf fg p ↔ q ∈ fg ∧ reaches fg p q := by
  rw [compOf, List.mem_filter, decide_eq_true_eq, mem_reach_iff]

theorem compOf_self_mem {fg : List Pix} {p : Pix} (hp : p ∈ fg) :
    p ∈ compOf fg p :=
  compOf_mem.mpr ⟨hp, Relation.ReflTransGen.refl⟩

theorem compOf_pairwise {fg : List Pix} (hs : fg.Pairwise pixLt) (p : Pix) :
    (compOf fg p).Pairwise pixLt :=
  hs.sublist (List.filter_sublist fg)

theorem head_of_sorted_filter {fg : List Pix} (hs : fg.Pairwise pixLt)
    {P : Pix → Bool} {p : Pix} (hp : p ∈ fg) (hP : P p = true)
    (hmin : ∀ q ∈ fg, P q = true → q = p ∨ pixLt p q) :
    (fg.filter P).head? = some p := by
  induction fg with
  | nil => simp at hp
  | cons x l ih =>
    rcases List.pairwise_cons.mp hs with ⟨hx, hl⟩
    by_cases hPx : P x = true
    · rw [List.filter_cons_of_pos hPx]
      have : x = p ∨ pixLt p x := hmin x (List.mem_cons_self x l) hPx
      rcases this with h | h
      · rw [h, List.head?_cons]
      · rcases List.mem_cons.mp hp with rfl | hp'
        · exact absurd h (pixLt_irrefl p)
        · exact absurd (hx p hp') (pixLt_asymm h)
    · rw [List.filter_cons_of_neg (by simpa using hPx)]
      have hxp : x ≠ p := fun e => hPx (e ▸ hP)
      rcases List.mem_cons.mp hp with rfl | hp'
      · exact absurd rfl hxp
      · exact ih hl hp' fun q hq hPq => hmin q (List.mem_cons_of_mem x hq) hPq

theorem compsAux_spec {fg : List Pix} (hfg : fg.Pairwise pixLt) :
    ∀ (scan covered : List Pix),
    (∀ q ∈ scan, q ∈ fg) →
    scan.Pairwise pixLt →
    (∀ q ∈ fg, q ∉ covered → q ∈ scan) →
    (∀ c ∈ covered, ∀ q, reaches fg c q → q ∈ covered) →
    (∀ comp ∈ compsAux fg covered scan,
      ∃ s, s ∈ scan ∧ s ∉ covered ∧ comp = compOf fg s ∧ comp.head? = some s) ∧
    (∀ q ∈ scan, q ∉ covered → ∃ comp ∈ compsAux fg covered scan, q ∈ comp) ∧
    ((compsAux fg covered scan).Pairwise fun c d => ∀ q ∈ c, q ∉ d) ∧
    (∀ comp ∈ compsAux fg covered scan, ∀ q ∈ comp, q ∈ fg ∧ q ∉ covered) ∧
    ((compsAux fg covered scan).Pairwise headLt) := by
  intro scan
  induction scan with
  | nil =>
    intro covered _ _ _ _
    refine ⟨?_, ?_, ?_, ?_, ?_⟩ <;> simp [compsAux]
  | cons p rest ih =>
    intro covered hsub hpw hcov3 hclosed
    have hpr : ∀ q ∈ rest, pixLt p q := (List.pairwise_cons.mp hpw).1
    have hrestpw : rest.Pairwise pixLt := (List.pairwise_cons.mp hpw).2
    have hrestsub : ∀ q ∈ rest, q ∈ fg := fun q hq => hsub q (List.mem_cons_of_mem p hq)
    by_cases hpc : p ∈ covered
    · have heq : compsAux fg covered (p :: rest) = compsAux fg covered rest := by
        simp only [compsAux, if_pos hpc]
      have hcov3' : ∀ q ∈ fg, q ∉ covered → q ∈ rest := by
        intro q hq hqc
        rcases List.mem_cons.mp (hcov3 q hq hqc) with rfl | h
        · exact absurd hpc hqc
        · exact h
      rcases ih covered hrestsub hrestpw hcov3' hclosed with ⟨hA, hB, hC, hD, hE⟩
      rw [heq]
      refine ⟨?_, ?_, hC, hD, hE⟩
      · intro comp hcomp
        rcases hA comp hcomp with ⟨s, hs1, hs2, hs3, hs4⟩
        exact ⟨s, List.mem_cons_of_mem p hs1, hs2, hs3, hs4⟩
      · intro q hq hqc
        rcases List.mem_cons.mp hq with rfl | hq'
        · exact absurd hpc hqc
        · exact hB q hq' hqc
    · have hpfg : p ∈ fg := hsub p (List.mem_cons_self p rest)
      have hpC : p ∈ compOf fg p := compOf_self_mem hpfg
      have heq : compsAux fg covered (p :: rest)
          = compOf fg p :: compsAux fg (covered ++ compOf fg p) rest := by
        simp only [compsAux, if_neg hpc]
      have key1 : ∀ q ∈ compOf fg p, q ∉ covered := by
        intro q hq hqcov
        rcases compOf_mem.mp hq with ⟨hqfg, hreach⟩
        exact hpc (hclosed q hqcov p (reaches_symm hpfg hreach))
      have key2 : ∀ q ∈ compOf fg p, q = p ∨ pixLt p q := by
        intro q hq
        rcases compOf_mem.mp hq with ⟨hqfg, -⟩
        rcases List.mem_cons.mp (hcov3 q hqfg (key1 q hq)) with rfl | h
        · exact Or.inl rfl
        · exact Or.inr (hpr q h)
      have key3 : (compOf fg p).head? = some p := by
        refine head_of_sorted_filter hfg hpfg
          (by simp only [decide_eq_true_eq, mem_reach_iff]
              exact Relation.ReflTransGen.refl) ?_
        intro q hq hPq
        simp only [decide_eq_true_eq] at hPq
        exact key2 q (List.mem_filter.mpr ⟨hq, by simpa using hPq⟩)
      have key4 : ∀ c ∈ covered ++ compOf fg p, ∀ q, reaches fg c q →
          q ∈ covered ++ compOf fg p := by
        intro c hc q hreach
        rcases List.mem_append.mp hc with hc | hc
        · exact List.mem_append_left _ (hclosed c hc q hreach)
        · rcases compOf_mem.mp hc with ⟨hcfg, hpc'⟩
          refine List.mem_append_right _ ?_
          rcases reaches_mem hreach with rfl | hqfg
          · exact hc
          · exact compOf_mem.mpr ⟨hqfg, hpc'.trans hreach⟩
      have hcov3' : ∀ q ∈ fg, q ∉ covered ++ compOf fg p → q ∈ rest := by
        intro q hq hqc
        have hq1 : q ∉ covered := fun h => hqc (List.mem_append_left _ h)
        rcases List.mem_cons.mp (hcov3 q hq hq1) with rfl | h
        · exact absurd (List.mem_append_right _ hpC) hqc
        · exact h
      rcases ih (covered ++ compOf fg p) hrestsub hrestpw hcov3' key4 with
        ⟨hA, hB, hC, hD, hE⟩
      rw [heq]
      refine ⟨?_, ?_, ?_, ?_, ?_⟩
      · intro comp hcomp
        rcases List.mem_cons.mp hcomp with rfl | hcomp'
        · exact ⟨p, List.mem_cons_self p rest, hpc, rfl, key3⟩
        · rcases hA comp hcomp' with ⟨s, hs1, hs2, hs3, hs4⟩
          exact ⟨s, List.mem_cons_of_mem p hs1,
            fun h => hs2 (List.mem_append_left _ h), hs3, hs4⟩
      · intro q hq hqc
        rcases List.mem_cons.mp hq with rfl | hq'
        · exact ⟨compOf fg q, List.mem_cons_self _ _, hpC⟩
        · by_cases hqC : q ∈ compOf fg p
          · exact ⟨compOf fg p, List.mem_cons_self _ _, hqC⟩
          · have : q ∉ covered ++ compOf fg p := by
              intro h
              rcases List.mem_append.mp h with h | h
              · exact hqc h
              · exact hqC h
            rcases hB q hq' this with ⟨comp, hcm, hqcm⟩
            exact ⟨comp, List.mem_cons_of_mem _ hcm, hqcm⟩
      · refine List.pairwise_cons.mpr ⟨?_, hC⟩
        intro d hd q hqC hqd
        exact (hD d hd q hqd).2 (List.mem_append_right _ hqC)
      · intro comp hcomp q hq
        rcases List.mem_cons.mp hcomp with rfl | hcomp'
        · exact ⟨(compOf_mem.mp hq).1, key1 q hq⟩
        · have := hD comp hcomp' q hq
          exact ⟨this.1, fun h => this.2 (List.mem_append_left _ h)⟩
      · refine List.pairwise_cons.mpr ⟨?_, hE⟩
        intro d hd
        rcases hA d hd with ⟨s, hs1, -, -, hs4⟩
        exact ⟨p, s, key3, hs4, hpr s hs1⟩

theorem componentsOf_spec (mask : Mask) :
    (∀ comp ∈ componentsOf mask, ∃ s, s ∈ fgList mask ∧
      comp = compOf (fgList mask) s ∧ comp.head? = some s) ∧
    (∀ q ∈ fgList mask, ∃ comp ∈ componentsOf mask, q ∈ comp) ∧
    ((componentsOf mask).Pairwise fun c d => ∀ q ∈ c, q ∉ d) ∧
    (∀ comp ∈ componentsOf mask, ∀ q ∈ comp, q ∈ fgList mask) ∧
    ((componentsOf mask).Pairwise headLt) := by
  have h := compsAux_spec (fgList_pairwise mask) (fgList mask) []
    (fun q hq => hq) (fgList_pairwise mask)
    (fun q hq _ => hq) (by intro c hc; simp at hc)
  rcases h with ⟨hA, hB, hC, hD, hE⟩
  refine ⟨?_, ?_, hC, fun comp hc q hq => (hD comp hc q hq).1, hE⟩
  · intro comp hcomp
    rcases hA comp hcomp with ⟨s, hs1, -, hs3, hs4⟩
    exact ⟨s, hs1, hs3, hs4⟩
  · intro q hq
    exact hB q hq (by simp)

theorem componentsOf_sorted (mask : Mask) :
    ∀ comp ∈ componentsOf mask, comp.Pairwise pixLt := by
  intro comp hcomp
  rcases (componentsOf_spec mask).1 comp hcomp with ⟨s, -, hs3, -⟩
  rw [hs3]
  exact compOf_pairwise (fgList_pairwise mask) s

theorem componentsOf_of_fg_nil {mask : Mask} (h : fgList mask = []) :
    componentsOf mask = [] := by
  rw [componentsOf, h]
  rfl

theorem slice5Aux_length {α : Type} :
    ∀ (l : List α) (c : ℕ), (slice5Aux c l).length = (l.length - c + 4) / 5 := by
  intro l
  induction l with
  | nil => intro c; simp [slice5Aux]
  | cons x xs ih =>
    intro c
    match c with
    | 0 =>
      rw [slice5Aux, List.length_cons, List.length_cons, ih 4]
      have e1 : xs.length + 1 - 0 + 4 = xs.length + 5 := by omega
      have e2 : (xs.length + 5) / 5 = xs.length / 5 + 1 :=
        Nat.add_div_right _ (by norm_num)
      have e3 : (xs.length - 4 + 4) / 5 = xs.length / 5 := by
        by_cases h4 : 4 ≤ xs.length
        · have h1 : xs.length - 4 + 4 = xs.length := by omega
          rw [h1]
        · have h1 : xs.length - 4 = 0 := by omega
          have h2 : xs.length / 5 = 0 := Nat.div_eq_of_lt (by omega)
          rw [h1, h2]
      rw [e1, e2, e3]
    | n + 1 =>
      rw [slice5Aux, List.length_cons, ih n]
      have h1 : xs.length + 1 - (n + 1) = xs.length - n := by omega
      rw [h1]

/-- Length of the stride-5 slice: the ceiling of `length / 5` in integer
arithmetic. -/
theorem slice5_length {α : Type} (l : List α) :
    (slice5 l).length = (l.length + 4) / 5 := by
  rw [slice5, slice5Aux_length l 0, Nat.sub_zero]

theorem slice5Aux_getElem? {α : Type} :
    ∀ (l : List α) (c k : ℕ), (slice5Aux c l)[k]? = l[c + 5 * k]? := by
  intro l
  induction l with
  | nil => intro c k; simp [slice5Aux]
  | cons x xs ih =>
    intro c k
    match c with
    | 0 =>
      rw [slice5Aux]
      match k with
      | 0 => simp
      | k + 1 =>
        rw [List.getElem?_cons_succ, ih 4 k]
        have h1 : 0 + 5 * (k + 1) = (4 + 5 * k) + 1 := by omega
        rw [h1, List.getElem?_cons_succ]
    | n + 1 =>
      rw [slice5Aux, ih n k]
      have h1 : n + 1 + 5 * k = (n + 5 * k) + 1 := by omega
      rw [h1, List.getElem?_cons_succ]

/-- The element at position `k` of the stride-5 slice is the element at
index `5 * k` of the original list. -/
theorem slice5_getElem? {α : Type} (l : List α) (k : ℕ) :
    (slice5 l)[k]? = l[5 * k]? := by
  rw [slice5, slice5Aux_getElem? l 0 k, Nat.zero_add]

theorem slice5Aux_sublist {α : Type} :
    ∀ (l : List α) (c : ℕ), (slice5Aux c l).Sublist l := by
  intro l
  induction l with
  | nil => intro c; simp [slice5Aux]
  | cons x xs ih =>
    intro c
    match c with
    | 0 => exact List.Sublist.cons₂ x (ih 4)
    | n + 1 => exact (ih n).cons x

/-- The stride-5 slice is a subsequence of the original list, preserving
relative order. -/
theorem slice5_sublist {α : Type} (l : List α) : (slice5 l).Sublist l :=
  slice5Aux_sublist l 0

theorem ceil_div_five (n : ℕ) : ⌈(n : ℚ) / 5⌉₊ = (n + 4) / 5 := by
  rcases Nat.eq_zero_or_pos n with rfl | hn
  · norm_num
  · have hm : (n + 4) / 5 ≠ 0 := by
      have h5 : 5 ≤ n + 4 := by omega
      have := (Nat.one_le_div_iff (by norm_num : 0 < 5)).mpr h5
      omega
    rw [Nat.ceil_eq_iff hm]
    have hdm := Nat.div_add_mod (n + 4) 5
    have hml : (n + 4) % 5 < 5 := Nat.mod_lt _ (by norm_num)
    have hge1 : 1 ≤ (n + 4) / 5 := Nat.one_le_iff_ne_zero.mpr hm
    constructor
    · have h5m : 5 * ((n + 4) / 5) ≤ n + 4 := by omega
      have hc : (5 : ℚ) * (((n + 4) / 5 : ℕ) : ℚ) ≤ (n : ℚ) + 4 := by
        exact_mod_cast h5m
      rw [Nat.cast_sub hge1]
      rw [lt_div_iff₀ (by norm_num : (0 : ℚ) < 5)]
      push_cast
      linarith
    · have h5m : n ≤ 5 * ((n + 4) / 5) := by omega
      have hc : (n : ℚ) ≤ 5 * (((n + 4) / 5 : ℕ) : ℚ) := by exact_mod_cast h5m
      rw [div_le_iff₀ (by norm_num : (0 : ℚ) < 5)]
      linarith

theorem enumFrom_fst_le {α : Type} {n : ℕ} {l : List α} :
    ∀ ia ∈ List.enumFrom n l, n ≤ ia.1 := by
  induction l generalizing n with
  | nil => simp
  | cons a l ih =>
    intro ia hia
    rcases List.mem_cons.mp hia with rfl | h
    · exact le_refl n
    · exact (Nat.le_succ n).trans (ih ia h)

theorem enumFrom_pairwise_fst {α : Type} (n : ℕ) (l : List α) :
    (List.enumFrom n l).Pairwise fun a b => a.1 < b.1 := by
  induction l generalizing n with
  | nil => simp
  | cons a l ih =>
    refine List.Pairwise.cons ?_ (ih (n + 1))
    intro b hb
    exact Nat.lt_of_lt_of_le (Nat.lt_succ_self n) (enumFrom_fst_le b hb)

theorem enumFrom_flatMap_snd {α β : Type} (n : ℕ) (l : List α) (h : α → List β) :
    ((List.enumFrom n l).flatMap fun ia => h ia.2) = l.flatMap h := by
  induction l generalizing n with
  | nil => rfl
  | cons a l ih =>
    simp only [List.enumFrom, List.flatMap_cons]
    rw [ih]

theorem enumFrom_map_snd_comp {α β : Type} (n : ℕ) (l : List α) (g : α → β) :
    ((List.enumFrom n l).map fun ia => g ia.2) = l.map g := by
  have h1 : ((List.enumFrom n l).map fun ia => g ia.2)
      = ((List.enumFrom n l).map Prod.snd).map g := by
    rw [List.map_map]
    rfl
  rw [h1, List.enumFrom_map_snd]

theorem pairwise_flatMap_enumFrom {α β : Type} (c : ℕ) (K : β → ℕ)
    (R : β → β → Prop) :
    ∀ (l : List α) (n : ℕ) (f : ℕ × α → List β),
    (∀ ia ∈ List.enumFrom n l, ∀ b ∈ f ia, K b = ia.1 + c) →
    (∀ ia ∈ List.enumFrom n l, (f ia).Pairwise R) →
    ((List.enumFrom n l).flatMap f).Pairwise
      fun x y => K x < K y ∨ (K x = K y ∧ R x y) := by
  intro l
  induction l with
  | nil => intro n f _ _; simp
  | cons a l ih =>
    intro n f hK hR
    have hcons : List.enumFrom n (a :: l) = (n, a) :: List.enumFrom (n + 1) l := rfl
    have h0 : (n, a) ∈ List.enumFrom n (a :: l) := by
      rw [hcons]; exact List.mem_cons_self _ _
    rw [hcons, List.flatMap_cons, List.pairwise_append]
    refine ⟨?_, ?_, ?_⟩
    · refine List.Pairwise.imp_of_mem ?_ (hR (n, a) h0)
      intro x y hx hy hxy
      exact Or.inr ⟨by rw [hK _ h0 x hx, hK _ h0 y hy], hxy⟩
    · exact ih (n + 1) f
        (fun ia hia => hK ia (hcons ▸ List.mem_cons_of_mem _ hia))
        (fun ia hia => hR ia (hcons ▸ List.mem_cons_of_mem _ hia))
    · intro x hx y hy
      left
      rw [hK _ h0 x hx]
      rcases List.mem_flatMap.mp hy with ⟨ia, hia, hyf⟩
      rw [hK ia (hcons ▸ List.mem_cons_of_mem _ hia) y hyf]
      have := enumFrom_fst_le ia hia
      omega

theorem keyedRecordsOfComps_mem {ci si : ℕ} {alt sfx : String}
    {comps : List (List Pix)} {x : (ℕ × ℕ × ℕ × ℕ) × OutputRecord}
    (hx : x ∈ keyedRecordsOfComps ci si alt sfx comps) :
    x.1.1 = ci ∧ x.1.2.1 = si ∧ x.2.componentIndex = x.1.2.2.1
      ∧ 1 ≤ x.1.2.2.1 := by
  rcases List.mem_flatMap.mp hx with ⟨kc, hkc, hx2⟩
  rcases List.mem_map.mp hx2 with ⟨jrc, hjrc, rfl⟩
  exact ⟨rfl, rfl, rfl, Nat.succ_le_succ (Nat.zero_le _)⟩

theorem keyedRecordsOfComps_pairwise (ci si : ℕ) (alt sfx : String)
    (comps : List (List Pix)) :
    (keyedRecordsOfComps ci si alt sfx comps).Pairwise fun x y =>
      x.1.2.2.1 < y.1.2.2.1 ∨ (x.1.2.2.1 = y.1.2.2.1 ∧ x.1.2.2.2 < y.1.2.2.2) := by
  unfold keyedRecordsOfComps
  have henum : comps.enum = List.enumFrom 0 comps := rfl
  rw [henum]
  refine pairwise_flatMap_enumFrom 1
    (fun x : (ℕ × ℕ × ℕ × ℕ) × OutputRecord => x.1.2.2.1)
    (fun x y : (ℕ × ℕ × ℕ × ℕ) × OutputRecord => x.1.2.2.2 < y.1.2.2.2)
    comps 0 _ ?_ ?_
  · intro kc hkc b hb
    rcases List.mem_map.mp hb with ⟨jrc, hjrc, rfl⟩
    rfl
  · intro kc hkc
    rw [List.pairwise_map]
    have he : (slice5 kc.2).enum = List.enumFrom 0 (slice5 kc.2) := rfl
    rw [he]
    exact enumFrom_pairwise_fst 0 (slice5 kc.2)

theorem pairRecordsKeyed_mem {ci si : ℕ} {alt sfx : String}
    {matching : List String} {sk : Mask → Mask} {imageOf : String → Raster}
    {x : (ℕ × ℕ × ℕ × ℕ) × OutputRecord}
    (hx : x ∈ pairRecordsKeyed ci si alt sfx matching sk imageOf) :
    x.1.1 = ci ∧ x.1.2.1 = si ∧ x.2.componentIndex = x.1.2.2.1
      ∧ 1 ≤ x.1.2.2.1 := by
  unfold pairRecordsKeyed at hx
  split at hx
  · simp at hx
  · exact keyedRecordsOfComps_mem hx

theorem pairRecordsKeyed_pairwise (ci si : ℕ) (alt sfx : String)
    (matching : List String) (sk : Mask → Mask) (imageOf : String → Raster) :
    (pairRecordsKeyed ci si alt sfx matching sk imageOf).Pairwise fun x y =>
      x.1.2.2.1 < y.1.2.2.1 ∨ (x.1.2.2.1 = y.1.2.2.1 ∧ x.1.2.2.2 < y.1.2.2.2) := by
  unfold pairRecordsKeyed
  split
  · simp
  · exact keyedRecordsOfComps_pairwise ci si alt sfx _

theorem extract_points_keyed_mem
    {image_names dirFiles suffixes alt_names : List String}
    {sk : Mask → Mask} {imageOf : String → Raster}
    {x : (ℕ × ℕ × ℕ × ℕ) × OutputRecord}
    (hx : x ∈ extract_points_keyed image_names dirFiles suffixes alt_names sk imageOf) :
    x.2.componentIndex = x.1.2.2.1 ∧ 1 ≤ x.1.2.2.1 := by
  unfold extract_points_keyed at hx
  simp only at hx
  rcases List.mem_flatMap.mp hx with ⟨ii, hii, hx2⟩
  rcases List.mem_flatMap.mp hx2 with ⟨ss, hss, hx3⟩
  exact (pairRecordsKeyed_mem hx3).2.2

theorem extract_points_keyed_pairwise
    (image_names dirFiles suffixes alt_names : List String)
    (sk : Mask → Mask) (imageOf : String → Raster) :
    (extract_points_keyed image_names dirFiles suffixes alt_names sk imageOf).Pairwise
      fun x y => keyLt x.1 y.1 := by
  unfold extract_points_keyed
  simp only
  have henum : image_names.enum = List.enumFrom 0 image_names := rfl
  rw [henum]
  have hmain := pairwise_flatMap_enumFrom 0
    (fun x : (ℕ × ℕ × ℕ × ℕ) × OutputRecord => x.1.1)
    (fun x y : (ℕ × ℕ × ℕ × ℕ) × OutputRecord =>
      x.1.2.1 < y.1.2.1 ∨ (x.1.2.1 = y.1.2.1 ∧
      (x.1.2.2.1 < y.1.2.2.1 ∨ (x.1.2.2.1 = y.1.2.2.1 ∧ x.1.2.2.2 < y.1.2.2.2))))
    image_names 0
    (fun ii => (suffixes.enum.flatMap fun ss =>
      pairRecordsKeyed ii.1 ss.1 (alt_names.getD ii.1 "") ss.2
        (matchingFiles (tifListing dirFiles) (nameOnlyOf ii.2)) sk imageOf))
    ?_ ?_
  · refine hmain.imp ?_
    intro x y hxy
    unfold keyLt
    simpa using hxy
  · intro ia hia b hb
    rcases List.mem_flatMap.mp hb with ⟨ss, hss, hb2⟩
    show b.1.1 = ia.1 + 0
    rw [(pairRecordsKeyed_mem hb2).1]
    omega
  · intro ia hia
    have henum2 : suffixes.enum = List.enumFrom 0 suffixes := rfl
    rw [henum2]
    have hsfx := pairwise_flatMap_enumFrom 0
      (fun x : (ℕ × ℕ × ℕ × ℕ) × OutputRecord => x.1.2.1)
      (fun x y : (ℕ × ℕ × ℕ × ℕ) × OutputRecord =>
        x.1.2.2.1 < y.1.2.2.1 ∨
        (x.1.2.2.1 = y.1.2.2.1 ∧ x.1.2.2.2 < y.1.2.2.2))
      suffixes 0
      (fun ss => pairRecordsKeyed ia.1 ss.1 (alt_names.getD ia.1 "") ss.2
        (matchingFiles (tifListing dirFiles) (nameOnlyOf ia.2)) sk imageOf)
      ?_ ?_
    · refine hsfx.imp ?_
      intro x y hxy
      simpa using hxy
    · intro ss hss b hb
      show b.1.2.1 = ss.1 + 0
      rw [(pairRecordsKeyed_mem hb).2.1]
      omega
    · intro ss hss
      exact pairRecordsKeyed_pairwise ia.1 ss.1 _ ss.2 _ sk imageOf

theorem keyedRecordsOfComps_map_snd (ci si : ℕ) (alt sfx : String)
    (comps : List (List Pix)) :
    (keyedRecordsOfComps ci si alt sfx comps).map Prod.snd
      = recordsOfComps alt sfx comps := by
  unfold keyedRecordsOfComps recordsOfComps
  rw [List.map_flatMap]
  refine List.flatMap_congr ?_
  intro kc hkc
  rw [List.map_map]
  have he : (slice5 kc.2).enum = List.enumFrom 0 (slice5 kc.2) := rfl
  rw [he]
  exact enumFrom_map_snd_comp 0 (slice5 kc.2) fun rc : Pix =>
    ({ label := alt, x := rc.2, y := rc.1, suffix := sfx,
       componentIndex := kc.1 + 1 } : OutputRecord)

theorem pairRecordsKeyed_map_snd (ci si : ℕ) (alt sfx : String)
    (matching : List String) (sk : Mask → Mask) (imageOf : String → Raster) :
    (pairRecordsKeyed ci si alt sfx matching sk imageOf).map Prod.snd
      = pairRecords alt sfx matching sk imageOf := by
  unfold pairRecordsKeyed pairRecords
  cases hh : (filesWithSuffix matching sfx).head? <;>
    simp [hh, keyedRecordsOfComps_map_snd]

theorem extract_points_keyed_map_snd
    (image_names dirFiles suffixes alt_names : List String)
    (sk : Mask → Mask) (imageOf : String → Raster) :
    (extract_points_keyed image_names dirFiles suffixes alt_names sk imageOf).map
        Prod.snd
      = extract_points image_names dirFiles suffixes alt_names sk imageOf := by
  unfold extract_points_keyed extract_points
  simp only
  rw [List.map_flatMap]
  refine List.flatMap_congr ?_
  intro ii hii
  rw [List.map_flatMap]
  have h2 : (suffixes.enum.flatMap fun ss =>
        (pairRecordsKeyed ii.1 ss.1 (alt_names.getD ii.1 "") ss.2
          (matchingFiles (tifListing dirFiles) (nameOnlyOf ii.2)) sk imageOf).map
            Prod.snd)
      = suffixes.enum.flatMap fun ss =>
        pairRecords (alt_names.getD ii.1 "") ss.2
          (matchingFiles (tifListing dirFiles) (nameOnlyOf ii.2)) sk imageOf :=
    List.flatMap_congr fun ss _ => pairRecordsKeyed_map_snd ii.1 ss.1 _ ss.2 _ sk imageOf
  rw [h2]
  have he : suffixes.enum = List.enumFrom 0 suffixes := rfl
  rw [he]
  exact enumFrom_flatMap_snd 0 suffixes fun sfx =>
    pairRecords (alt_names.getD ii.1 "") sfx
      (matchingFiles (tifListing dirFiles) (nameOnlyOf ii.2)) sk imageOf

theorem filter_head?_none_iff {α : Type} (l : List α) (P : α → Bool) :
    (l.filter P).head? = none ↔ ∀ a ∈ l, ¬ P a := by
  rw [List.head?_eq_none_iff, List.filter_eq_nil_iff]

theorem filter_head?_some {α : Type} {l : List α} {P : α → Bool} {a : α}
    (h : (l.filter P).head? = some a) :
    a ∈ l ∧ P a = true ∧ ∃ pre post, l = pre ++ a :: post ∧ ∀ b ∈ pre, ¬ P b := by
  induction l with
  | nil => simp at h
  | cons x l ih =>
    by_cases hP : P x = true
    · rw [List.filter_cons_of_pos hP, List.head?_cons, Option.some_inj] at h
      subst h
      exact ⟨List.mem_cons_self _ _, hP, [], l, rfl, by simp⟩
    · rw [List.filter_cons_of_neg (by simpa using hP)] at h
      rcases ih h with ⟨h1, h2, pre, post, heq, hpre⟩
      refine ⟨List.mem_cons_of_mem x h1, h2, x :: pre, post, by rw [heq]; rfl, ?_⟩
      intro b hb
      rcases List.mem_cons.mp hb with rfl | hb'
      · simpa using hP
      · exact hpre b hb'

theorem pairRecords_of_no_match {alt sfx : String} {matching : List String}
    {sk : Mask → Mask} {imageOf : String → Raster}
    (h : (filesWithSuffix matching sfx).head? = none) :
    pairRecords alt sfx matching sk imageOf = [] := by
  unfold pairRecords
  rw [h]

/-- C1: for a component with an ordered pixel list of `N > 0` pixels the
emitter produces exactly `⌈N / 5⌉` records; the `k`-th record carries
`x` = the column and `y` = the row of the pixel at index `5 * k`; the emitted
`(row, col)` pairs are a subsequence of the pixel list preserving relative
order; and the per-component emitter is exactly the inner loop of
`recordsOfComps`. -/
theorem claim_C1_stride_law (alt sfx : String) (ci : ℕ) (coords : List Pix)
    (hN : 0 < coords.length) :
    (emitComponent alt sfx ci coords).length = ⌈(coords.length : ℚ) / 5⌉₊
    ∧ (∀ k rc, coords[5 * k]? = some rc →
        (emitComponent alt sfx ci coords)[k]? = some
          { label := alt, x := rc.2, y := rc.1, suffix := sfx,
            componentIndex := ci })
    ∧ ((emitComponent alt sfx ci coords).map fun r => ((r.y, r.x) : Pix)).Sublist
        coords
    ∧ ∀ comps : List (List Pix), recordsOfComps alt sfx comps
        = comps.enum.flatMap fun kc => emitComponent alt sfx (kc.1 + 1) kc.2 := by
  refine ⟨?_, ?_, ?_, fun comps => rfl⟩
  · rw [emitComponent, List.length_map, slice5_length, ceil_div_five]
  · intro k rc hrc
    rw [emitComponent, List.getElem?_map, slice5_getElem?, hrc]
    rfl
  · rw [emitComponent, List.map_map]
    have h : ((fun r : OutputRecord => ((r.y, r.x) : Pix)) ∘ fun rc : Pix =>
        ({ label := alt, x := rc.2, y := rc.1, suffix := sfx,
           componentIndex := ci } : OutputRecord)) = id := rfl
    rw [h, List.map_id]
    exact slice5_sublist coords

/-- Witness for C1 at a concrete six-pixel component. -/
theorem claim_C1_stride_law_witness :
    0 < ([((0 : ℕ), (0 : ℕ)), (0, 1), (0, 2), (1, 2), (2, 2), (2, 3)] : List Pix).length
    ∧ ((emitComponent "S1" "_s1" 1
          [(0, 0), (0, 1), (0, 2), (1, 2), (2, 2), (2, 3)]).length
        = ⌈(([((0 : ℕ), (0 : ℕ)), (0, 1), (0, 2), (1, 2), (2, 2), (2, 3)] : List Pix).length : ℚ) / 5⌉₊
      ∧ (∀ k rc, ([((0 : ℕ), (0 : ℕ)), (0, 1), (0, 2), (1, 2), (2, 2), (2, 3)] : List Pix)[5 * k]? = some rc →
          (emitComponent "S1" "_s1" 1
            [(0, 0), (0, 1), (0, 2), (1, 2), (2, 2), (2, 3)])[k]? = some
            { label := "S1", x := rc.2, y := rc.1, suffix := "_s1",
              componentIndex := 1 })
      ∧ ((emitComponent "S1" "_s1" 1
            [(0, 0), (0, 1), (0, 2), (1, 2), (2, 2), (2, 3)]).map
              fun r => ((r.y, r.x) : Pix)).Sublist
          [(0, 0), (0, 1), (0, 2), (1, 2), (2, 2), (2, 3)]
      ∧ ∀ comps : List (List Pix), recordsOfComps "S1" "_s1" comps
          = comps.enum.flatMap fun kc => emitComponent "S1" "_s1" (kc.1 + 1) kc.2) :=
  ⟨by decide, claim_C1_stride_law "S1" "_s1" 1
    [(0, 0), (0, 1), (0, 2), (1, 2), (2, 2), (2, 3)] (by decide)⟩

/-- C2: the mask has the raster's dimensions; for a `uint8` raster a pixel is
foreground iff its value is strictly below 255; for a float raster with
values in `[0, 1]` a pixel is foreground iff its value is strictly below 1. -/
theorem claim_C2_binarization (r : Raster) :
    ((binarize r).length = r.pixels.length
      ∧ ∀ i : ℕ, ((binarize r)[i]?.map List.length)
          = (r.pixels[i]?.map List.length))
    ∧ (r.dtype = Dtype.uint8 →
        ∀ i j v, pixAt r i j = some v →
          maskAt (binarize r) i j = some (decide (v < 255)))
    ∧ (r.dtype = Dtype.float64 →
        (∀ i j v, pixAt r i j = some v → 0 ≤ v ∧ v ≤ 1) →
        ∀ i j v, pixAt r i j = some v →
          maskAt (binarize r) i j = some (decide (v < 1))) := by
  refine ⟨⟨?_, ?_⟩, ?_, ?_⟩
  · unfold binarize
    split <;> rw [List.length_map]
  · intro i
    unfold binarize
    split <;> cases hri : r.pixels[i]? <;>
      simp [List.getElem?_map, hri]
  · intro h8 i j v hv
    rcases Option.bind_eq_some.mp hv with ⟨row, hrow, hvj⟩
    unfold binarize
    rw [if_pos h8]
    unfold maskAt
    rw [List.getElem?_map, hrow]
    simp only [Option.map_some', Option.some_bind, List.getElem?_map, hvj]
  · intro hf _ i j v hv
    rcases Option.bind_eq_some.mp hv with ⟨row, hrow, hvj⟩
    have hne : r.dtype ≠ Dtype.uint8 := by rw [hf]; intro h; cases h
    unfold binarize
    rw [if_neg hne]
    unfold maskAt
    rw [List.getElem?_map, hrow]
    simp only [Option.map_some', Option.some_bind, List.getElem?_map, hvj]

/-- Witness for C2 at a concrete `uint8` raster holding 255 and 254. -/
theorem claim_C2_binarization_witness :
    ((binarize ⟨Dtype.uint8, [[255, 254]]⟩).length
        = (⟨Dtype.uint8, [[255, 254]]⟩ : Raster).pixels.length
      ∧ ∀ i : ℕ,
          ((binarize ⟨Dtype.uint8, [[255, 254]]⟩)[i]?.map List.length)
            = ((⟨Dtype.uint8, [[255, 254]]⟩ : Raster).pixels[i]?.map List.length))
    ∧ ((⟨Dtype.uint8, [[255, 254]]⟩ : Raster).dtype = Dtype.uint8 →
        ∀ i j v, pixAt ⟨Dtype.uint8, [[255, 254]]⟩ i j = some v →
          maskAt (binarize ⟨Dtype.uint8, [[255, 254]]⟩) i j
            = some (decide (v < 255)))
    ∧ ((⟨Dtype.uint8, [[255, 254]]⟩ : Raster).dtype = Dtype.float64 →
        (∀ i j v, pixAt ⟨Dtype.uint8, [[255, 254]]⟩ i j = some v →
          0 ≤ v ∧ v ≤ 1) →
        ∀ i j v, pixAt ⟨Dtype.uint8, [[255, 254]]⟩ i j = some v →
          maskAt (binarize ⟨Dtype.uint8, [[255, 254]]⟩) i j
            = some (decide (v < 1))) :=
  claim_C2_binarization ⟨Dtype.uint8, [[255, 254]]⟩

/-- C3 counterexample: a raster whose dtype is neither `uint8` nor float (a
`uint16` sample with value 200) is not rejected; the source's `else` branch
binarizes it with the float threshold and produces a mask (here `[[false]]`,
wrongly classifying the mid-gray pixel as background). No error path exists
in the source. -/
theorem claim_C3_counterexample :
    binarize ⟨Dtype.uint16, [[200]]⟩ = [[false]]
      ∧ (binarize ⟨Dtype.uint16, [[200]]⟩).length = 1 := by
  constructor
  · rfl
  · rfl

/-- C3 amended: for every raster whose dtype is not `uint8` (including
unsupported integer domains such as `uint16`), the binarizer silently applies
the float threshold `< 1.0` and produces a mask; no error is raised and the
run is not aborted. -/
theorem claim_C3_amended (r : Raster) (h : r.dtype ≠ Dtype.uint8) :
    binarize r = r.pixels.map fun row => row.map fun v => decide (v < 1) := by
  unfold binarize
  rw [if_neg h]

/-- Witness for the amended C3 at the `uint16` raster. -/
theorem claim_C3_amended_witness :
    (⟨Dtype.uint16, [[200]]⟩ : Raster).dtype ≠ Dtype.uint8
    ∧ binarize ⟨Dtype.uint16, [[200]]⟩
      = (⟨Dtype.uint16, [[200]]⟩ : Raster).pixels.map
          fun row => row.map fun v => decide (v < 1) :=
  ⟨by decide, claim_C3_amended ⟨Dtype.uint16, [[200]]⟩
    (by decide)⟩

/-- C4 counterexample: on a hook-shaped skeleton the source's component
coordinate list is the row-major order of the pixels, not the breadth-first
visit order from the component's first pixel (spec's clockwise-from-north
neighbor order). In the emitted order the pixel `(0, 2)` (at graph distance 4
from the seed `(0, 0)`) precedes `(1, 0)` (at distance 1), so no
breadth-first visit order, whatever its fixed neighbor order, can produce it. -/
theorem claim_C4_counterexample :
    (componentsOf [[true, false, true], [true, false, true], [true, true, true]]).head?
      = some [(0, 0), (0, 2), (1, 0), (1, 2), (2, 0), (2, 1), (2, 2)]
    ∧ bfsOrder
        (fgList [[true, false, true], [true, false, true], [true, true, true]])
        (0, 0)
      = [(0, 0), (1, 0), (2, 1), (2, 0), (1, 2), (2, 2), (0, 2)]
    ∧ ([((0 : ℕ), (0 : ℕ)), (0, 2), (1, 0), (1, 2), (2, 0), (2, 1), (2, 2)] : List Pix)
      ≠ [(0, 0), (1, 0), (2, 1), (2, 0), (1, 2), (2, 2), (0, 2)] := by
  refine ⟨by decide, by decide, by decide⟩

/-- C4 amended: each component's ordered pixel list is the row-major
(ascending row, then ascending column) enumeration of its pixel set, which is
exactly the set of foreground pixels 8-connected to the component's first
pixel — not the breadth-first visit order claimed by the spec. -/
theorem claim_C4_amended (mask : Mask) :
    ∀ comp ∈ componentsOf mask, comp.Pairwise pixLt ∧
      ∃ s, comp.head? = some s ∧
        ∀ q, (q ∈ comp ↔ q ∈ fgList mask ∧ reaches (fgList mask) s q) := by
  intro comp hcomp
  refine ⟨componentsOf_sorted mask comp hcomp, ?_⟩
  rcases (componentsOf_spec mask).1 comp hcomp with ⟨s, hs1, hs3, hs4⟩
  refine ⟨s, hs4, fun q => ?_⟩
  rw [hs3]
  exact compOf_mem

/-- Witness for the amended C4 at the hook-shaped skeleton's single
component. -/
theorem claim_C4_amended_witness :
    ([((0 : ℕ), (0 : ℕ)), (0, 2), (1, 0), (1, 2), (2, 0), (2, 1), (2, 2)] : List Pix).Pairwise
        pixLt
    ∧ ∃ s, ([((0 : ℕ), (0 : ℕ)), (0, 2), (1, 0), (1, 2), (2, 0), (2, 1), (2, 2)] : List Pix).head?
        = some s
      ∧ ∀ q, (q ∈ ([((0 : ℕ), (0 : ℕ)), (0, 2), (1, 0), (1, 2), (2, 0), (2, 1), (2, 2)] : List Pix)
          ↔ q ∈ fgList [[true, false, true], [true, false, true], [true, true, true]]
            ∧ reaches
                (fgList [[true, false, true], [true, false, true], [true, true, true]])
                s q) :=
  claim_C4_amended [[true, false, true], [true, false, true], [true, true, true]]
    [(0, 0), (0, 2), (1, 0), (1, 2), (2, 0), (2, 1), (2, 2)] (by decide)

/-- C5: the components of a skeleton partition its foreground: every
foreground pixel lies in some component, distinct components are disjoint,
every component pixel is foreground, each component lists each of its pixels
once (strictly sorted), and an empty foreground yields no components. -/
theorem claim_C5_partition (mask : Mask) :
    (∀ q ∈ fgList mask, ∃ comp ∈ componentsOf mask, q ∈ comp)
    ∧ ((componentsOf mask).Pairwise fun c d => ∀ q ∈ c, q ∉ d)
    ∧ (∀ comp ∈ componentsOf mask, ∀ q ∈ comp, q ∈ fgList mask)
    ∧ (∀ comp ∈ componentsOf mask, comp.Pairwise pixLt)
    ∧ (fgList mask = [] → componentsOf mask = []) :=
  ⟨(componentsOf_spec mask).2.1, (componentsOf_spec mask).2.2.1,
   (componentsOf_spec mask).2.2.2.1, componentsOf_sorted mask,
   componentsOf_of_fg_nil⟩

/-- Witness for C5 at a two-component skeleton. -/
theorem claim_C5_partition_witness :
    (∀ q ∈ fgList [[true, false], [false, true], [false, false], [true, true]],
      ∃ comp ∈ componentsOf [[true, false], [false, true], [false, false],
        [true, true]], q ∈ comp)
    ∧ ((componentsOf [[true, false], [false, true], [false, false],
        [true, true]]).Pairwise fun c d => ∀ q ∈ c, q ∉ d)
    ∧ (∀ comp ∈ componentsOf [[true, false], [false, true], [false, false],
        [true, true]], ∀ q ∈ comp,
        q ∈ fgList [[true, false], [false, true], [false, false], [true, true]])
    ∧ (∀ comp ∈ componentsOf [[true, false], [false, true], [false, false],
        [true, true]], comp.Pairwise pixLt)
    ∧ (fgList [[true, false], [false, true], [false, false], [true, true]] = []
        → componentsOf [[true, false], [false, true], [false, false],
            [true, true]] = []) :=
  claim_C5_partition [[true, false], [false, true], [false, false], [true, true]]

/-- C6: the output stream is the key-ordered stream: tagging each record with
its `(criterion index, suffix index, component id, stride position)` key
yields the same record sequence, the key sequence is strictly increasing in
lexicographic order, every record's `componentIndex` equals its key's
component id, component ids start at 1, and within any mask the components
are listed in ascending order of their first (row-major) pixel. -/
theorem claim_C6_output_order
    (image_names dirFiles suffixes alt_names : List String)
    (sk : Mask → Mask) (imageOf : String → Raster) :
    ((extract_points_keyed image_names dirFiles suffixes alt_names sk
        imageOf).map Prod.snd
      = extract_points image_names dirFiles suffixes alt_names sk imageOf)
    ∧ ((extract_points_keyed image_names dirFiles suffixes alt_names sk
        imageOf).Pairwise fun x y => keyLt x.1 y.1)
    ∧ (∀ x ∈ extract_points_keyed image_names dirFiles suffixes alt_names sk
        imageOf, x.2.componentIndex = x.1.2.2.1 ∧ 1 ≤ x.1.2.2.1)
    ∧ (∀ mask : Mask, (componentsOf mask).Pairwise headLt) :=
  ⟨extract_points_keyed_map_snd image_names dirFiles suffixes alt_names sk imageOf,
   extract_points_keyed_pairwise image_names dirFiles suffixes alt_names sk imageOf,
   fun _ hx => extract_points_keyed_mem hx,
   fun mask => (componentsOf_spec mask).2.2.2.2⟩

/-- Witness for C6 at a concrete one-criterion run. -/
theorem claim_C6_output_order_witness :
    ((extract_points_keyed ["s.tif"] ["sx1.tif"] ["x"] ["A"] id
        (fun _ => ⟨Dtype.uint8, [[255, 0], [255, 0]]⟩)).map Prod.snd
      = extract_points ["s.tif"] ["sx1.tif"] ["x"] ["A"] id
          (fun _ => ⟨Dtype.uint8, [[255, 0], [255, 0]]⟩))
    ∧ ((extract_points_keyed ["s.tif"] ["sx1.tif"] ["x"] ["A"] id
        (fun _ => ⟨Dtype.uint8, [[255, 0], [255, 0]]⟩)).Pairwise
          fun x y => keyLt x.1 y.1)
    ∧ (∀ x ∈ extract_points_keyed ["s.tif"] ["sx1.tif"] ["x"] ["A"] id
        (fun _ => ⟨Dtype.uint8, [[255, 0], [255, 0]]⟩),
        x.2.componentIndex = x.1.2.2.1 ∧ 1 ≤ x.1.2.2.1)
    ∧ (∀ mask : Mask, (componentsOf mask).Pairwise headLt) :=
  claim_C6_output_order ["s.tif"] ["sx1.tif"] ["x"] ["A"] id
    (fun _ => ⟨Dtype.uint8, [[255, 0], [255, 0]]⟩)

/-- C7: the file selector considers only non-hidden `.tif` files; when no
listed file contains both the base name and the suffix the pair contributes
no records (and nothing else happens); when a file is selected it is the
first file of the listing, in listing order, whose basename contains the base
name and the suffix. -/
theorem claim_C7_file_selector (dirFiles : List String) (nameOnly sfx alt : String)
    (sk : Mask → Mask) (imageOf : String → Raster) :
    (∀ f ∈ tifListing dirFiles, endsWithChars f ".tif" = true
      ∧ startsWithChars f "." = false)
    ∧ ((filesWithSuffix (matchingFiles (tifListing dirFiles) nameOnly)
          sfx).head? = none
        ↔ ∀ f ∈ tifListing dirFiles,
            ¬(containsStr (basenameStr f) nameOnly = true
              ∧ containsStr (basenameStr f) sfx = true))
    ∧ ((filesWithSuffix (matchingFiles (tifListing dirFiles) nameOnly)
          sfx).head? = none →
        pairRecords alt sfx (matchingFiles (tifListing dirFiles) nameOnly)
          sk imageOf = [])
    ∧ (∀ f, (filesWithSuffix (matchingFiles (tifListing dirFiles) nameOnly)
          sfx).head? = some f →
        f ∈ tifListing dirFiles
        ∧ containsStr (basenameStr f) nameOnly = true
        ∧ containsStr (basenameStr f) sfx = true
        ∧ ∃ pre post, tifListing dirFiles = pre ++ f :: post
            ∧ ∀ g ∈ pre, ¬(containsStr (basenameStr g) nameOnly = true
                ∧ containsStr (basenameStr g) sfx = true)) := by
  have hff : filesWithSuffix (matchingFiles (tifListing dirFiles) nameOnly) sfx
      = (tifListing dirFiles).filter fun f =>
          containsStr (basenameStr f) sfx && containsStr (basenameStr f) nameOnly := by
    unfold filesWithSuffix matchingFiles
    rw [List.filter_filter]
  refine ⟨?_, ?_, ?_, ?_⟩
  · intro f hf
    rcases List.mem_filter.mp hf with ⟨-, hcond⟩
    simp only [Bool.and_eq_true, Bool.not_eq_true'] at hcond
    exact ⟨hcond.2, hcond.1⟩
  · rw [hff, filter_head?_none_iff]
    constructor
    · intro h f hf hc
      have := h f hf
      simp only [Bool.and_eq_true] at this
      exact this ⟨hc.2, hc.1⟩
    · intro h f hf
      simp only [Bool.and_eq_true]
      intro hc
      exact h f hf ⟨hc.2, hc.1⟩
  · exact fun h => pairRecords_of_no_match h
  · intro f hf
    rw [hff] at hf
    rcases filter_head?_some hf with ⟨h1, h2, pre, post, heq, hpre⟩
    simp only [Bool.and_eq_true] at h2
    refine ⟨h1, h2.2, h2.1, pre, post, heq, ?_⟩
    intro g hg hc
    have := hpre g hg
    simp only [Bool.and_eq_true] at this
    exact this ⟨hc.2, hc.1⟩

/-- Witness for C7: a listing where no file carries the suffix (silent skip)
and the selector facts hold. -/
theorem claim_C7_file_selector_witness :
    ((∀ f ∈ tifListing ["a1.tif", "b.png"], endsWithChars f ".tif" = true
      ∧ startsWithChars f "." = false)
    ∧ ((filesWithSuffix (matchingFiles (tifListing ["a1.tif", "b.png"]) "a")
          "zz").head? = none
        ↔ ∀ f ∈ tifListing ["a1.tif", "b.png"],
            ¬(containsStr (basenameStr f) "a" = true
              ∧ containsStr (basenameStr f) "zz" = true))
    ∧ ((filesWithSuffix (matchingFiles (tifListing ["a1.tif", "b.png"]) "a")
          "zz").head? = none →
        pairRecords "A" "zz" (matchingFiles (tifListing ["a1.tif", "b.png"]) "a")
          id (fun _ => ⟨Dtype.uint8, [[0]]⟩) = [])
    ∧ (∀ f, (filesWithSuffix (matchingFiles (tifListing ["a1.tif", "b.png"]) "a")
          "zz").head? = some f →
        f ∈ tifListing ["a1.tif", "b.png"]
        ∧ containsStr (basenameStr f) "a" = true
        ∧ containsStr (basenameStr f) "zz" = true
        ∧ ∃ pre post, tifListing ["a1.tif", "b.png"] = pre ++ f :: post
            ∧ ∀ g ∈ pre, ¬(containsStr (basenameStr g) "a" = true
                ∧ containsStr (basenameStr g) "zz" = true)))
    ∧ (filesWithSuffix (matchingFiles (tifListing ["a1.tif", "b.png"]) "a")
        "zz").head? = none :=
  ⟨claim_C7_file_selector ["a1.tif", "b.png"] "a" "zz" "A" id
    (fun _ => ⟨Dtype.uint8, [[0]]⟩), by decide⟩

/-- C9 counterexample: two directory states with the same set of files (a
permutation of the listing) and unchanged file contents produce different
output bytes, because the selector's first-match tie-break follows the
listing order. The two candidate files are an all-white image and an image
with one black pixel; the identity stands in for the skeletonizer, which by
the spec fixes both the empty mask and the single-pixel mask. So
byte-identical output is not guaranteed by "same directory contents" alone. -/
theorem claim_C9_counterexample :
    (["sx1.tif", "sx2.tif"] : List String).Perm ["sx2.tif", "sx1.tif"]
    ∧ serializeAll (extract_points ["s.tif"] ["sx1.tif", "sx2.tif"] ["x"] ["A"]
        id (fun f => if f = "sx2.tif" then ⟨Dtype.uint8, [[255, 255], [255, 0]]⟩
          else ⟨Dtype.uint8, [[255, 255], [255, 255]]⟩))
      ≠ serializeAll (extract_points ["s.tif"] ["sx2.tif", "sx1.tif"] ["x"] ["A"]
        id (fun f => if f = "sx2.tif" then ⟨Dtype.uint8, [[255, 255], [255, 0]]⟩
          else ⟨Dtype.uint8, [[255, 255], [255, 255]]⟩)) := by
  refine ⟨by decide, by decide⟩

/-- C9 amended: the pipeline is deterministic in its full input state: two
runs that see the same criteria, the same directory listing (same files in
the same enumeration order) and the same file contents produce byte-identical
output streams. -/
theorem claim_C9_amended
    (image_names₁ image_names₂ dirFiles₁ dirFiles₂ suffixes₁ suffixes₂
      alt_names₁ alt_names₂ : List String)
    (sk₁ sk₂ : Mask → Mask) (imageOf₁ imageOf₂ : String → Raster)
    (h1 : image_names₁ = image_names₂) (h2 : dirFiles₁ = dirFiles₂)
    (h3 : suffixes₁ = suffixes₂) (h4 : alt_names₁ = alt_names₂)
    (h5 : sk₁ = sk₂) (h6 : imageOf₁ = imageOf₂) :
    serializeAll (extract_points image_names₁ dirFiles₁ suffixes₁ alt_names₁
        sk₁ imageOf₁)
      = serializeAll (extract_points image_names₂ dirFiles₂ suffixes₂
          alt_names₂ sk₂ imageOf₂) := by
  rw [h1, h2, h3, h4, h5, h6]

/-- Witness for the amended C9 at concrete equal inputs. -/
theorem claim_C9_amended_witness :
    (["s.tif"] : List String) = ["s.tif"]
    ∧ serializeAll (extract_points ["s.tif"] ["sx1.tif"] ["x"] ["A"] id
        (fun _ => ⟨Dtype.uint8, [[0]]⟩))
      = serializeAll (extract_points ["s.tif"] ["sx1.tif"] ["x"] ["A"] id
          (fun _ => ⟨Dtype.uint8, [[0]]⟩)) :=
  ⟨rfl, claim_C9_amended ["s.tif"] ["s.tif"] ["sx1.tif"] ["sx1.tif"] ["x"] ["x"]
    ["A"] ["A"] id id (fun _ => ⟨Dtype.uint8, [[0]]⟩) (fun _ => ⟨Dtype.uint8, [[0]]⟩)
    rfl rfl rfl rfl rfl rfl⟩

/-- C10: the output file is opened in write mode up front: after a run its
content is exactly the serialized records, independent of whatever the file
held before, and a run that emits no records leaves an existing empty file. -/
theorem claim_C10_truncation (prev prev' : String)
    (image_names dirFiles suffixes alt_names : List String)
    (sk : Mask → Mask) (imageOf : String → Raster) :
    (finalFileContent prev image_names dirFiles suffixes alt_names sk imageOf
      = serializeAll (extract_points image_names dirFiles suffixes alt_names
          sk imageOf))
    ∧ (finalFileContent prev image_names dirFiles suffixes alt_names sk imageOf
      = finalFileContent prev' image_names dirFiles suffixes alt_names sk imageOf)
    ∧ (extract_points image_names dirFiles suffixes alt_names sk imageOf = [] →
        finalFileContent prev image_names dirFiles suffixes alt_names sk imageOf
          = "") := by
  unfold finalFileContent openWT
  refine ⟨by simp, by simp, ?_⟩
  intro h
  rw [h]
  rfl

/-- Witness for C10: a run with no matching files leaves an empty output
file regardless of the file's previous content. -/
theorem claim_C10_truncation_witness :
    (finalFileContent "old content" ["s.tif"] [] ["x"] ["A"] id
        (fun _ => ⟨Dtype.uint8, [[0]]⟩)
      = serializeAll (extract_points ["s.tif"] [] ["x"] ["A"] id
          (fun _ => ⟨Dtype.uint8, [[0]]⟩)))
    ∧ (finalFileContent "old content" ["s.tif"] [] ["x"] ["A"] id
        (fun _ => ⟨Dtype.uint8, [[0]]⟩)
      = finalFileContent "" ["s.tif"] [] ["x"] ["A"] id
          (fun _ => ⟨Dtype.uint8, [[0]]⟩))
    ∧ (extract_points ["s.tif"] [] ["x"] ["A"] id
        (fun _ => ⟨Dtype.uint8, [[0]]⟩) = [] →
        finalFileContent "old content" ["s.tif"] [] ["x"] ["A"] id
          (fun _ => ⟨Dtype.uint8, [[0]]⟩) = "") :=
  claim_C10_truncation "old content" "" ["s.tif"] [] ["x"] ["A"] id
    (fun _ => ⟨Dtype.uint8, [[0]]⟩)
